import Mathlib

/-!
Verification of the manifest-ingestion and version-resolution core of the
`lip` package manager (Go sources `internal/tooth/archive.go` and
`internal/tooth/utils.go`), as a shallow embedding in Lean 4.

The `internal/path` package, the manifest JSON decoder (`MakeMetadata`),
the zip reader and the `blang/semver` library are collaborators that are
not part of the two source files; they are modelled from the specification
(each such definition carries a doc comment starting `Modelled from the
spec:`).  Everything else is translated directly from the Go sources.
-/

namespace Lip

/-! ### Character-list string primitives

The Go code uses `strings` and `bufio` library functions.  They are
re-implemented here by structural recursion over the character list of a
`String`, so that every definition evaluates inside the kernel. -/

/-- Split a character list at every occurrence of the separator; the result
always has one more group than there are separators (so the empty input
yields one empty group), matching `strings.Split` for a one-character
separator. -/
def splitCharList (sep : Char) : List Char → List (List Char)
  | [] => [[]]
  | c :: rest =>
    match splitCharList sep rest with
    | [] => [[]]
    | group :: groups =>
      if c = sep then [] :: group :: groups else (c :: group) :: groups

/-- `strings.Split` of a string at a one-character separator. -/
def splitOnChar (sep : Char) (s : String) : List String :=
  (splitCharList sep s.data).map (fun cs => ⟨cs⟩)

/-- `strings.HasSuffix`. -/
def strEndsWith (s post : String) : Bool :=
  post.data.isSuffixOf s.data

/-- `strings.HasPrefix` on raw strings. -/
def strStartsWith (s p : String) : Bool :=
  p.data.isPrefixOf s.data

/-- Remove the last `n` characters of a string. -/
def strDropRight (s : String) (n : Nat) : String :=
  ⟨s.data.take (s.data.length - n)⟩

/-- Remove the first `n` characters of a string. -/
def strDrop (s : String) (n : Nat) : String :=
  ⟨s.data.drop n⟩

/-- `strings.ToLower` (character-wise lowering). -/
def strToLower (s : String) : String :=
  ⟨s.data.map Char.toLower⟩

/-- `strings.Join` with a one-character separator. -/
def joinWithChar (sep : Char) : List String → List Char
  | [] => []
  | [s] => s.data
  | s :: rest => s.data ++ sep :: joinWithChar sep rest

/-- Byte-wise (here: character-wise) strict order on strings, as Go's `<`
comparison on ASCII strings. -/
def strLt (s t : String) : Prop :=
  List.Lex (· < ·) s.data t.data

instance strLt.instDecidableRel : DecidableRel strLt := fun _ _ =>
  inferInstanceAs (Decidable (List.Lex _ _ _))

/-! ### Path values -/

/-- Modelled from the spec: the normalized path value type of `internal/path`
(not under `src/`): a sequence of non-empty components with `/` separators,
supporting join, prefix test, prefix strip, parent and longest common
prefix. -/
structure Path where
  components : List String
deriving DecidableEq, Repr

/-- Modelled from the spec: `path.MakeEmpty`, the empty path. -/
def Path.MakeEmpty : Path := ⟨[]⟩

/-- Modelled from the spec: `path.Parse`, normalization of a `/`-separated
string into a path value (empty components produced by duplicate, leading or
trailing separators are dropped).  The spec names a `PathParseError` but
gives no criterion for invalidity, so parsing is modelled as total. -/
def Path.parse (s : String) : Path :=
  ⟨(splitOnChar '/' s).filter (fun c => c ≠ "")⟩

/-- Modelled from the spec: `Path.String`, the canonical `/`-separated
rendering of a path. -/
def Path.toString (p : Path) : String :=
  ⟨joinWithChar '/' p.components⟩

/-- Modelled from the spec: `Path.IsEmpty`. -/
def Path.IsEmpty (p : Path) : Bool :=
  p.components.isEmpty

/-- Modelled from the spec: `Path.Join`, path concatenation. -/
def Path.Join (p q : Path) : Path :=
  ⟨p.components ++ q.components⟩

/-- Modelled from the spec: `Path.HasPrefix`, the component-wise
path-prefix test. -/
def Path.HasPrefix (p q : Path) : Bool :=
  q.components.isPrefixOf p.components

/-- Modelled from the spec: `Path.TrimPrefix`, which removes a leading
path-prefix when present and otherwise returns the path unchanged. -/
def Path.TrimPrefix (p q : Path) : Path :=
  if q.components.isPrefixOf p.components then
    ⟨p.components.drop q.components.length⟩
  else p

/-- Modelled from the spec: `Path.Dir`, the parent directory of a path. -/
def Path.Dir (p : Path) : Path :=
  ⟨p.components.dropLast⟩

/-- The longest common prefix of two component lists. -/
def commonComponents : List String → List String → List String
  | a :: as, b :: bs => if a = b then a :: commonComponents as bs else []
  | _, _ => []

/-- Modelled from the spec: `path.ExtractLongestCommonPath`, the longest
common path-prefix of a non-empty family of paths (empty for an empty
family). -/
def Path.ExtractLongestCommonPath (paths : List Path) : Path :=
  match paths with
  | [] => Path.MakeEmpty
  | p :: ps => ⟨ps.foldl (fun acc q => commonComponents acc q.components) p.components⟩

/-! ### Metadata model -/

/-- One entry of the manifest's `files.place` list
(Go `RawMetadataFilesPlaceItem`): a source path (possibly ending in the
wildcard marker `*`) and a destination path, both as raw strings. -/
structure RawMetadataFilesPlaceItem where
  Src : String
  Dest : String
deriving DecidableEq, Repr

/-- The typed view over a parsed manifest that the two source files use:
identity (`tooth`), optional asset URL (`asset_url`) and the ordered
placement-rule list (`files.place`). -/
structure Metadata where
  toothRepoPath : String
  assetURL : String
  filesPlace : List RawMetadataFilesPlaceItem
deriving DecidableEq, Repr

/-- Go `strings.TrimSuffix`: remove one occurrence of a trailing suffix
when present. -/
def trimSuffixStr (s suffixStr : String) : String :=
  if strEndsWith s suffixStr then strDropRight s suffixStr.data.length else s

/-- The expansion of one placement rule against the candidate list, embedded
from the loop body of `populateMetadataFilePlaceWildcards`
(`archive.go` lines 137-166). -/
def expandPlaceItem (placeItem : RawMetadataFilesPlaceItem) (filePaths : List Path) :
    List RawMetadataFilesPlaceItem :=
  if ¬ strEndsWith placeItem.Src "*" then [placeItem]
  else
    let sourcePathPre := Path.parse (trimSuffixStr placeItem.Src "*")
    let destPathPre := Path.parse placeItem.Dest
    filePaths.filterMap (fun filePath =>
      if filePath.HasPrefix sourcePathPre then
        some { Src := filePath.toString
               Dest := (destPathPre.Join (filePath.TrimPrefix sourcePathPre)).toString }
      else none)

/-- Embedded from `populateMetadataFilePlaceWildcards` (`archive.go`
lines 132-173): rebuild the `files.place` list, appending non-wildcard rules
unchanged and appending, for each wildcard rule, one concrete rule per
matching candidate path.  The Go path-parse error branch is vacuous here
because the modelled `Path.parse` is total. -/
def populateMetadataFilePlaceWildcards (metadata : Metadata) (filePaths : List Path) :
    Metadata :=
  { metadata with
    filesPlace := metadata.filesPlace.flatMap (fun placeItem => expandPlaceItem placeItem filePaths) }

/-- The wildcard-resolution procedure exactly as §4.2 of the spec words it,
rule by rule, for comparison with the embedded
`populateMetadataFilePlaceWildcards`. -/
def resolvePlacementSpec (rules : List RawMetadataFilesPlaceItem) (candidatePaths : List Path) :
    List RawMetadataFilesPlaceItem :=
  match rules with
  | [] => []
  | rule :: rest =>
    (if strEndsWith rule.Src "*" then
      let sourcePre := Path.parse (strDropRight rule.Src 1)
      let destPre := Path.parse rule.Dest
      (candidatePaths.filter (fun candidatePath => candidatePath.HasPrefix sourcePre)).map
        (fun candidatePath =>
          { Src := candidatePath.toString
            Dest := (destPre.Join (candidatePath.TrimPrefix sourcePre)).toString })
    else [rule]) ++ resolvePlacementSpec rest candidatePaths

/-! ### Archive construction -/

/-- An archive value (Go `Archive`): the resolved metadata, the path of the
zip holding the assets, and the package root inside that zip. -/
structure Archive where
  metadata : Metadata
  assetArchiveFilePath : Path
  assetArchiveFilePathRoot : Path
deriving DecidableEq, Repr

/-- The only failure that can arise in the embedded portion of
`MakeArchive`: the asset-URL / external-archive-path consistency check. -/
inductive MakeArchiveError where
  | configMismatch
deriving DecidableEq, Repr

/-- Embedded from `MakeArchive` (`archive.go` lines 34-41): the package root
is the longest common path-prefix of the entry paths, except that an archive
with exactly one entry uses the parent directory of that entry. -/
def inferPackageRoot (filePaths : List Path) : Path :=
  let filePathRoot := Path.ExtractLongestCommonPath filePaths
  if filePaths.length = 1 then filePathRoot.Dir else filePathRoot

/-- Embedded from `MakeArchive` (`archive.go` lines 74-112), from the point
where the manifest has been parsed: the zip reader and JSON decoder are not
under `src/`, so the enumerated entry paths and the parsed `metadata` are
taken as inputs.  Validates the asset-URL / external-path consistency, then
resolves wildcards against the root-trimmed entry list (self-contained
branch) or the untrimmed entry list (external-asset branch). -/
def makeArchiveFromMetadata (archiveFilePath assetArchiveFilePath : Path)
    (metadata : Metadata) (filePaths : List Path) : Except MakeArchiveError Archive :=
  let filePathRoot := inferPackageRoot filePaths
  if (metadata.assetURL == "" && !assetArchiveFilePath.IsEmpty) ||
      (metadata.assetURL != "" && assetArchiveFilePath.IsEmpty) then
    .error .configMismatch
  else if assetArchiveFilePath.IsEmpty then
    let filePathsTrimmed := filePaths.map (fun filePath => filePath.TrimPrefix filePathRoot)
    .ok { metadata := populateMetadataFilePlaceWildcards metadata filePathsTrimmed
          assetArchiveFilePath := archiveFilePath
          assetArchiveFilePathRoot := filePathRoot }
  else
    .ok { metadata := populateMetadataFilePlaceWildcards metadata filePaths
          assetArchiveFilePath := assetArchiveFilePath
          assetArchiveFilePathRoot := Path.MakeEmpty }

/-- `r` is a longest common path-prefix of `paths`: it is a path-prefix of
every member, and every common path-prefix is a path-prefix of it. -/
def IsLongestCommonPath (paths : List Path) (r : Path) : Prop :=
  (∀ p ∈ paths, r.components <+: p.components) ∧
    ∀ q : Path, (∀ p ∈ paths, q.components <+: p.components) → q.components <+: r.components

/-! ### Installed-package registry -/

/-- Modelled from the spec: the outcome of reading and parsing one persisted
manifest file of the storage location (`os.ReadFile` and `MakeMetadata` are
not under `src/`); `.error` carries the read or parse failure message. -/
abbrev MetadataFileOutcome := Except String Metadata

/-- The read-and-parse loop of `GetAllMetadata` (`utils.go` lines 51-63):
collect the metadata of every file, aborting with the first read or parse
failure. -/
def readMetadataFiles : List MetadataFileOutcome → Except String (List Metadata)
  | [] => .ok []
  | outcome :: rest =>
    match outcome with
    | .error e => .error e
    | .ok metadata =>
      match readMetadataFiles rest with
      | .error e => .error e
      | .ok metadataList => .ok (metadata :: metadataList)

/-- The comparator of the sort in `GetAllMetadata` (`utils.go` lines 67-70):
case-insensitive (non-strict) order of the tooth repository path, the
complement of the strict `ToLower`-comparison the Go code hands to
`sort.Slice`. -/
def repoPathLe (a b : Metadata) : Prop :=
  ¬ strLt (strToLower b.toothRepoPath) (strToLower a.toothRepoPath)

instance repoPathLe.instDecidableRel : DecidableRel repoPathLe := fun _ _ =>
  inferInstanceAs (Decidable (¬ _))

/-- Embedded from `GetAllMetadata` (`utils.go` lines 38-73): read and parse
every persisted manifest file, fail-fast on the first failure, and sort the
successful result case-insensitively by tooth repository path
(`sort.Slice` modelled as insertion sort with respect to the comparator). -/
def getAllMetadata (files : List MetadataFileOutcome) : Except String (List Metadata) :=
  match readMetadataFiles files with
  | .error e => .error e
  | .ok metadataList => .ok (metadataList.insertionSort repoPathLe)

/-- Embedded from `IsInstalled` (`utils.go` lines 20-35): list all metadata
and scan for an exact match of the tooth repository path. -/
def isInstalled (files : List MetadataFileOutcome) (toothRepoPath : String) :
    Except String Bool :=
  match getAllMetadata files with
  | .error e => .error e
  | .ok metadataList =>
    .ok (metadataList.any (fun metadata => metadata.toothRepoPath == toothRepoPath))

/-- Embedded from `GetMetadata` (`utils.go` lines 76-93): list all metadata
and return the first exact match of the tooth repository path, failing when
none exists. -/
def getMetadata (files : List MetadataFileOutcome) (toothRepoPath : String) :
    Except String Metadata :=
  match getAllMetadata files with
  | .error e => .error e
  | .ok metadataList =>
    match metadataList.find? (fun metadata => metadata.toothRepoPath == toothRepoPath) with
    | some metadata => .ok metadata
    | none => .error ("cannot find installed tooth metadata: " ++ toothRepoPath)

/-! ### Semantic versions -/

/-- Modelled from the spec: one pre-release identifier of a semantic
version, either numeric or alphanumeric. -/
inductive PreId where
  | num (n : Nat)
  | str (s : String)
deriving DecidableEq, Repr

/-- Modelled from the spec: a semantic version
`{major, minor, patch, pre-release components}` (build metadata carries no
precedence and is dropped at parse time). -/
structure Version where
  major : Nat
  minor : Nat
  patch : Nat
  pre : List PreId
deriving DecidableEq, Repr

/-- A character allowed in alphanumeric pre-release and build identifiers:
ASCII letters, digits and the hyphen. -/
def isIdentChar (c : Char) : Bool :=
  c.isAlpha || c.isDigit || c == '-'

/-- The numeric value of a digit list. -/
def digitsVal (cs : List Char) : Nat :=
  cs.foldl (fun acc c => acc * 10 + (c.toNat - 48)) 0

/-- A numeric field with no leading zeroes (other than `0` itself). -/
def parseNumericField (s : String) : Option Nat :=
  if s.data.length > 1 && s.data.headD ' ' == '0' then none
  else if !s.data.isEmpty && s.data.all Char.isDigit then some (digitsVal s.data) else none

/-- Modelled from the spec: one pre-release identifier — non-empty; numeric
(without leading zeroes) when all digits, alphanumeric otherwise. -/
def parsePreId (s : String) : Option PreId :=
  if s.data.isEmpty then none
  else if s.data.all Char.isDigit then (parseNumericField s).map PreId.num
  else if s.data.all isIdentChar then some (PreId.str s) else none

/-- A valid build-metadata suffix: non-empty dot-separated alphanumeric
identifiers. -/
def isValidBuild (s : String) : Bool :=
  (splitOnChar '.' s).all (fun ident => !ident.data.isEmpty && ident.data.all isIdentChar)

/-- The `major.minor.patch` core of a version string. -/
def parseCoreVersion (s : String) : Option (Nat × Nat × Nat) :=
  match splitOnChar '.' s with
  | [majorStr, minorStr, patchStr] =>
    match parseNumericField majorStr, parseNumericField minorStr, parseNumericField patchStr with
    | some major, some minor, some patch => some (major, minor, patch)
    | _, _, _ => none
  | _ => none

/-- Modelled from the spec: semantic-version parsing
(`major.minor.patch[-pre][+build]`); the pre-release part is the text after
the first `-`, split on dots; build metadata after the first `+` is
validated and dropped. -/
def semverParse (s : String) : Option Version :=
  match splitOnChar '+' s with
  | [] => none
  | verStr :: buildParts =>
    let buildOk := match buildParts with
      | [] => true
      | [buildStr] => isValidBuild buildStr
      | _ => false
    if !buildOk then none
    else
      match splitOnChar '-' verStr with
      | [] => none
      | coreStr :: preParts =>
        match parseCoreVersion coreStr with
        | none => none
        | some (major, minor, patch) =>
          if preParts.isEmpty then some ⟨major, minor, patch, []⟩
          else
            let preStr : String := ⟨joinWithChar '-' preParts⟩
            match (splitOnChar '.' preStr).mapM parsePreId with
            | some preIds => some ⟨major, minor, patch, preIds⟩
            | none => none

/-- Modelled from the spec: precedence of pre-release identifiers — numeric
identifiers compare numerically and rank below alphanumeric identifiers,
which compare as strings. -/
def preIdLt : PreId → PreId → Prop
  | .num n, .num m => n < m
  | .num _, .str _ => True
  | .str _, .num _ => False
  | .str s, .str t => strLt s t

instance preIdLt.instDecidableRel : DecidableRel preIdLt
  | .num n, .num m => inferInstanceAs (Decidable (n < m))
  | .num _, .str _ => .isTrue trivial
  | .str _, .num _ => .isFalse (fun h => h)
  | .str s, .str t => inferInstanceAs (Decidable (strLt s t))

/-- Modelled from the spec: precedence of pre-release component lists — a
version with pre-release components ranks below the same version without
any; two non-empty lists compare lexicographically identifier by
identifier, a strict prefix ranking below its extension. -/
def preListLt (p q : List PreId) : Prop :=
  p ≠ [] ∧ (q = [] ∨ List.Lex preIdLt p q)

instance preListLt.instDecidable (p q : List PreId) : Decidable (preListLt p q) :=
  inferInstanceAs (Decidable (_ ∧ _))

/-- Modelled from the spec: strict semantic-version precedence — major,
then minor, then patch, then the pre-release rules. -/
def semverLt (a b : Version) : Prop :=
  a.major < b.major ∨ a.major = b.major ∧
    (a.minor < b.minor ∨ a.minor = b.minor ∧
      (a.patch < b.patch ∨ a.patch = b.patch ∧ preListLt a.pre b.pre))

instance semverLt.instDecidable (a b : Version) : Decidable (semverLt a b) :=
  inferInstanceAs (Decidable (_ ∨ _))

instance preIdLt.instIsIrrefl : IsIrrefl PreId preIdLt :=
  ⟨fun a => by
    cases a with
    | num n => exact Nat.lt_irrefl n
    | str s => exact fun h => asymm_of (List.Lex (· < · : Char → Char → Prop)) h h⟩

instance preIdLt.instIsTrans : IsTrans PreId preIdLt :=
  ⟨fun a b c hab hbc => by
    cases a <;> cases b <;> cases c <;>
      first
        | exact trivial
        | exact hbc.elim
        | exact hab.elim
        | exact Nat.lt_trans hab hbc
        | exact trans_of (List.Lex (· < · : Char → Char → Prop)) hab hbc⟩

instance preIdLt.instIsTrichotomous : IsTrichotomous PreId preIdLt :=
  ⟨fun a b => by
    cases a with
    | num n =>
      cases b with
      | num m =>
        rcases Nat.lt_trichotomy n m with h | h | h
        · exact Or.inl h
        · exact Or.inr (Or.inl (by rw [h]))
        · exact Or.inr (Or.inr h)
      | str t => exact Or.inl trivial
    | str s =>
      cases b with
      | num m => exact Or.inr (Or.inr trivial)
      | str t =>
        rcases trichotomous_of (List.Lex (· < · : Char → Char → Prop)) s.data t.data
          with h | h | h
        · exact Or.inl h
        · exact Or.inr (Or.inl (by cases s; cases t; simp_all))
        · exact Or.inr (Or.inr h)⟩

instance preIdLt.instIsStrictTotalOrder : IsStrictTotalOrder PreId preIdLt := {}

instance : LinearOrder PreId := linearOrderOfSTO preIdLt

/-- The lexicographic key type that semantic-version precedence embeds
into: major, minor, patch, then the release flag (a release ranks above any
pre-release of the same numbers), then the pre-release identifier list. -/
abbrev VKey : Type := Lex (Nat × Lex (Nat × Lex (Nat × Lex (Bool × List PreId))))

/-- The lexicographic key of a version, used to transport order properties
of `semverLt` from the linear order on `VKey`. -/
def versionKey (v : Version) : VKey :=
  toLex (v.major, toLex (v.minor, toLex (v.patch, toLex (v.pre.isEmpty, v.pre))))

/-- The non-strict ascending comparator on versions: `a` does not rank
strictly above `b` in semantic-version precedence. -/
def semverAscLe (a b : Version) : Prop :=
  ¬ semverLt b a

instance semverAscLe.instDecidableRel : DecidableRel semverAscLe := fun _ _ =>
  inferInstanceAs (Decidable (¬ _))

/-- bufio line splitting (`bufio.ScanLines`): split on newlines, drop a
final empty segment produced by a trailing newline, and drop one trailing
carriage return from each line. -/
def splitLines (content : String) : List String :=
  let parts := splitOnChar '\n' content
  let parts := if parts.getLast? = some "" then parts.dropLast else parts
  parts.map (fun line => if strEndsWith line "\r" then strDropRight line 1 else line)

/-- The per-line handling of `GetAvailableVersions` (`utils.go` lines
125-131): strip an optional leading `v` and an optional trailing
`+incompatible`, then attempt a semantic-version parse. -/
def parseVersionLine (line : String) : Option Version :=
  let versionString := if strStartsWith line "v" then strDrop line 1 else line
  let versionString := trimSuffixStr versionString "+incompatible"
  semverParse versionString

/-- Embedded from `GetAvailableVersions` (`utils.go` lines 119-142), from
the point where the response body has been fetched: split into lines, parse
each line tolerantly (skipping failures), sort ascending by precedence
(`semver.Sort` modelled as insertion sort) and reverse to descending. -/
def getAvailableVersions (content : String) : List Version :=
  let versionList := (splitLines content).filterMap parseVersionLine
  (versionList.insertionSort semverAscLe).reverse

/-- Embedded from `GetLatestStableVersion` (`utils.go` lines 147-163), from
the fetched response body: scan the descending version list for the first
entry without pre-release components. -/
def getLatestStableVersion (content : String) : Except String Version :=
  match (getAvailableVersions content).find? (fun version => version.pre.isEmpty) with
  | some version => .ok version
  | none => .error "cannot find latest stable version"

/-! ### Helper lemmas -/

theorem filterMap_ite_eq_map_filter {α β : Type} (p : α → Bool) (g : α → β) :
    ∀ l : List α,
      (l.filterMap (fun x => if p x then some (g x) else none)) = (l.filter p).map g
  | [] => rfl
  | x :: xs => by
    by_cases h : p x <;>
      simp [List.filterMap_cons, List.filter_cons, h, filterMap_ite_eq_map_filter p g xs]

theorem trimSuffixStr_star {s : String} (h : strEndsWith s "*" = true) :
    trimSuffixStr s "*" = strDropRight s 1 := by
  simp only [trimSuffixStr, h, if_true]
  rfl

theorem expandPlaceItem_eq_spec (placeItem : RawMetadataFilesPlaceItem)
    (candidatePaths : List Path) :
    expandPlaceItem placeItem candidatePaths =
      if strEndsWith placeItem.Src "*" then
        (candidatePaths.filter
            (fun candidatePath => candidatePath.HasPrefix (Path.parse (strDropRight placeItem.Src 1)))).map
          (fun candidatePath =>
            { Src := candidatePath.toString
              Dest := ((Path.parse placeItem.Dest).Join
                  (candidatePath.TrimPrefix (Path.parse (strDropRight placeItem.Src 1)))).toString })
      else [placeItem] := by
  by_cases h : strEndsWith placeItem.Src "*"
  · simp only [expandPlaceItem, h, not_true_eq_false, if_false, if_true,
      trimSuffixStr_star h]
    exact filterMap_ite_eq_map_filter _ _ candidatePaths
  · simp [expandPlaceItem, h]

/-- **C1.** Wildcard resolution returns exactly the rule list described by
§4.2 of the spec: non-wildcard rules are copied unchanged in their original
position; each wildcard rule is replaced, in place, by one concrete rule
`(candidatePath, destPrefix.Join (candidatePath.TrimPrefix sourcePrefix))`
per matching candidate path, in candidate-list order; a wildcard rule
matching zero candidates contributes zero rules and is not an error. -/
theorem populate_wildcards_eq_spec_resolution (metadata : Metadata) (candidatePaths : List Path) :
    (populateMetadataFilePlaceWildcards metadata candidatePaths).filesPlace =
      resolvePlacementSpec metadata.filesPlace candidatePaths := by
  show metadata.filesPlace.flatMap (fun placeItem => expandPlaceItem placeItem candidatePaths) =
    resolvePlacementSpec metadata.filesPlace candidatePaths
  induction metadata.filesPlace with
  | nil => rfl
  | cons rule rest ih =>
    rw [List.flatMap_cons, ih, resolvePlacementSpec, expandPlaceItem_eq_spec]

theorem commonComponents_isPrefix_left :
    ∀ as bs : List String, commonComponents as bs <+: as
  | [], _ => by simp [commonComponents]
  | _ :: _, [] => by simp [commonComponents]
  | a :: as, b :: bs => by
    by_cases h : a = b
    · simpa [commonComponents, h] using commonComponents_isPrefix_left as bs
    · simp [commonComponents, h]

theorem commonComponents_isPrefix_right :
    ∀ as bs : List String, commonComponents as bs <+: bs
  | [], _ => by simp [commonComponents]
  | _ :: _, [] => by simp [commonComponents]
  | a :: as, b :: bs => by
    by_cases h : a = b
    · subst h
      simpa [commonComponents] using commonComponents_isPrefix_right as bs
    · simp [commonComponents, h]

theorem isPrefix_commonComponents (cs : List String) :
    ∀ as bs : List String, cs <+: as → cs <+: bs → cs <+: commonComponents as bs := by
  induction cs with
  | nil => intro as bs _ _; simp
  | cons c cs ih =>
    intro as bs h1 h2
    obtain ⟨t1, rfl⟩ := h1
    obtain ⟨t2, rfl⟩ := h2
    simp only [List.cons_append, commonComponents, if_pos rfl]
    exact List.cons_prefix_cons.mpr ⟨rfl, ih _ _ ⟨t1, rfl⟩ ⟨t2, rfl⟩⟩

theorem foldl_commonComponents_spec (ps : List Path) :
    ∀ acc : List String,
      (ps.foldl (fun acc q => commonComponents acc q.components) acc) <+: acc ∧
      (∀ p ∈ ps, (ps.foldl (fun acc q => commonComponents acc q.components) acc) <+: p.components) ∧
      (∀ cs : List String, cs <+: acc → (∀ p ∈ ps, cs <+: p.components) →
        cs <+: ps.foldl (fun acc q => commonComponents acc q.components) acc) := by
  induction ps with
  | nil =>
    intro acc
    exact ⟨List.prefix_refl acc, by simp, fun cs h _ => h⟩
  | cons q qs ih =>
    intro acc
    obtain ⟨ih1, ih2, ih3⟩ := ih (commonComponents acc q.components)
    refine ⟨ih1.trans (commonComponents_isPrefix_left acc q.components), ?_, ?_⟩
    · intro p hp
      rcases List.mem_cons.mp hp with rfl | hp
      · exact (List.foldl_cons _ _ ▸ ih1).trans (commonComponents_isPrefix_right acc p.components)
      · exact List.foldl_cons _ _ ▸ ih2 p hp
    · intro cs hacc hall
      refine List.foldl_cons _ _ ▸ ih3 cs ?_ (fun p hp => hall p (List.mem_cons_of_mem q hp))
      exact isPrefix_commonComponents cs _ _ hacc (hall q (List.mem_cons_self q qs))

theorem extractLongestCommonPath_spec (paths : List Path) (hne : paths ≠ []) :
    IsLongestCommonPath paths (Path.ExtractLongestCommonPath paths) := by
  match paths, hne with
  | p :: ps, _ =>
    obtain ⟨h1, h2, h3⟩ := foldl_commonComponents_spec ps p.components
    constructor
    · intro r hr
      rcases List.mem_cons.mp hr with rfl | hr
      · exact h1
      · exact h2 r hr
    · intro q hq
      exact h3 q.components (hq p (List.mem_cons_self p ps))
        (fun r hr => hq r (List.mem_cons_of_mem p hr))

/-- **C2.** The inferred package root of an archive's entry paths is the
longest common path-prefix of the entries — except that an archive with
exactly one entry uses the parent directory of that entry, so the single
entry `tooth.json` yields the empty root. -/
theorem inferPackageRoot_spec (filePaths : List Path) (hne : filePaths ≠ []) :
    (filePaths.length ≠ 1 → IsLongestCommonPath filePaths (inferPackageRoot filePaths)) ∧
    (∀ p : Path, filePaths = [p] → inferPackageRoot filePaths = p.Dir) := by
  constructor
  · intro hlen
    unfold inferPackageRoot
    simp only [hlen, if_false]
    exact extractLongestCommonPath_spec filePaths hne
  · rintro p rfl
    rfl

/-- Witness for C2: two entries under `pkgs/A` give root `pkgs/A`, and the
single entry `tooth.json` gives the empty root (its parent directory). -/
theorem inferPackageRoot_spec_witness :
    (IsLongestCommonPath [Path.parse "pkgs/A/tooth.json", Path.parse "pkgs/A/file.txt"]
        (inferPackageRoot [Path.parse "pkgs/A/tooth.json", Path.parse "pkgs/A/file.txt"])) ∧
      inferPackageRoot [Path.parse "tooth.json"] = Path.MakeEmpty := by
  constructor
  · exact (inferPackageRoot_spec _ (by simp)).1 (by simp)
  · exact ((inferPackageRoot_spec [Path.parse "tooth.json"] (by simp)).2 _ rfl).trans (by decide)

/-- The pre-release component order embeds into the `Bool ×ₗ List PreId`
lexicographic order keyed by the release flag. -/
theorem preListLt_iff : ∀ p q : List PreId,
    preListLt p q ↔ (toLex (p.isEmpty, p) : Lex (Bool × List PreId)) < toLex (q.isEmpty, q)
  | [], [] => by
    rw [Prod.Lex.lt_iff]
    simp [preListLt, lt_irrefl]
  | [], q :: qs => by
    rw [Prod.Lex.lt_iff]
    simp [preListLt]
  | p :: ps, [] => by
    rw [Prod.Lex.lt_iff]
    simp [preListLt]
  | p :: ps, q :: qs => by
    rw [Prod.Lex.lt_iff]
    simp [preListLt, lt_irrefl]
    exact Iff.rfl

theorem semverLt_iff_key (a b : Version) : semverLt a b ↔ versionKey a < versionKey b := by
  unfold versionKey
  rw [Prod.Lex.lt_iff, Prod.Lex.lt_iff, Prod.Lex.lt_iff, ← preListLt_iff]
  rfl


theorem semverAscLe_trans (a b c : Version) :
    semverAscLe a b → semverAscLe b c → semverAscLe a c := by
  unfold semverAscLe
  intro hba hcb hca
  rw [semverLt_iff_key] at hba hcb hca
  rcases lt_trichotomy (versionKey c) (versionKey b) with h | h | h
  · exact hcb h
  · rw [h] at hca; exact hba hca
  · exact hba (lt_trans h hca)

theorem semverAscLe_total (a b : Version) : semverAscLe a b ∨ semverAscLe b a := by
  unfold semverAscLe
  by_cases h : semverLt b a
  · refine Or.inr (fun h2 => ?_)
    rw [semverLt_iff_key] at h h2
    exact lt_asymm h h2
  · exact Or.inl h

theorem repoPathLe_trans (a b c : Metadata) :
    repoPathLe a b → repoPathLe b c → repoPathLe a c := by
  unfold repoPathLe strLt
  intro hba hcb hca
  rcases trichotomous_of (List.Lex (· < · : Char → Char → Prop))
      (strToLower c.toothRepoPath).data (strToLower b.toothRepoPath).data with h | h | h
  · exact hcb h
  · rw [h] at hca; exact hba hca
  · exact hba (trans_of (List.Lex (· < · : Char → Char → Prop)) h hca)

theorem repoPathLe_total (a b : Metadata) : repoPathLe a b ∨ repoPathLe b a := by
  unfold repoPathLe
  by_cases h : strLt (strToLower b.toothRepoPath) (strToLower a.toothRepoPath)
  · exact Or.inr (fun h2 => asymm_of (List.Lex (· < · : Char → Char → Prop)) h h2)
  · exact Or.inl h

/-- **C3.** `MakeArchive` fails with the configuration-mismatch error
exactly when one of the manifest asset URL and the external asset archive
path is empty and the other is not; when both are empty or both non-empty
the construction proceeds past this validation (and, in the embedded
fragment, succeeds). -/
theorem makeArchive_configMismatch_iff
    (archiveFilePath assetArchiveFilePath : Path) (metadata : Metadata) (filePaths : List Path) :
    (makeArchiveFromMetadata archiveFilePath assetArchiveFilePath metadata filePaths
        = .error .configMismatch ↔
      (metadata.assetURL = "" ∧ assetArchiveFilePath.IsEmpty = false) ∨
        (metadata.assetURL ≠ "" ∧ assetArchiveFilePath.IsEmpty = true)) ∧
    (¬ ((metadata.assetURL = "" ∧ assetArchiveFilePath.IsEmpty = false) ∨
        (metadata.assetURL ≠ "" ∧ assetArchiveFilePath.IsEmpty = true)) →
      ∃ ar, makeArchiveFromMetadata archiveFilePath assetArchiveFilePath metadata filePaths
        = .ok ar) := by
  have hcond : ((metadata.assetURL == "" && !assetArchiveFilePath.IsEmpty) ||
        (metadata.assetURL != "" && assetArchiveFilePath.IsEmpty)) = true ↔
      ((metadata.assetURL = "" ∧ assetArchiveFilePath.IsEmpty = false) ∨
        (metadata.assetURL ≠ "" ∧ assetArchiveFilePath.IsEmpty = true)) := by
    simp [Bool.or_eq_true, Bool.and_eq_true, beq_iff_eq, bne_iff_ne, Bool.not_eq_true']
  by_cases hc : ((metadata.assetURL == "" && !assetArchiveFilePath.IsEmpty) ||
      (metadata.assetURL != "" && assetArchiveFilePath.IsEmpty)) = true
  · constructor
    · rw [makeArchiveFromMetadata, if_pos hc]
      exact ⟨fun _ => hcond.mp hc, fun _ => rfl⟩
    · intro hnp
      exact absurd (hcond.mp hc) hnp
  · constructor
    · rw [makeArchiveFromMetadata, if_neg hc]
      constructor
      · intro h
        by_cases he : assetArchiveFilePath.IsEmpty
        · rw [if_pos he] at h
          exact absurd h (by simp)
        · rw [if_neg he] at h
          exact absurd h (by simp)
      · intro hp
        exact absurd (hcond.mpr hp) hc
    · intro _
      rw [makeArchiveFromMetadata, if_neg hc]
      by_cases he : assetArchiveFilePath.IsEmpty
      · rw [if_pos he]
        exact ⟨_, rfl⟩
      · rw [if_neg he]
        exact ⟨_, rfl⟩

/-- **C4.** The two success branches of `MakeArchive`: with an empty
external asset path, wildcards are resolved against the root-trimmed entry
list and the result carries the archive's own path and the inferred root;
with a non-empty external path, wildcards are resolved against the original
untrimmed entry list and the result carries the external path and an empty
root. -/
theorem makeArchive_branches
    (archiveFilePath assetArchiveFilePath : Path) (metadata : Metadata) (filePaths : List Path)
    (hvalid : ¬ ((metadata.assetURL = "" ∧ assetArchiveFilePath.IsEmpty = false) ∨
      (metadata.assetURL ≠ "" ∧ assetArchiveFilePath.IsEmpty = true))) :
    (assetArchiveFilePath.IsEmpty = true →
      makeArchiveFromMetadata archiveFilePath assetArchiveFilePath metadata filePaths =
        .ok { metadata := populateMetadataFilePlaceWildcards metadata
                (filePaths.map (fun filePath => filePath.TrimPrefix (inferPackageRoot filePaths)))
              assetArchiveFilePath := archiveFilePath
              assetArchiveFilePathRoot := inferPackageRoot filePaths }) ∧
    (assetArchiveFilePath.IsEmpty = false →
      makeArchiveFromMetadata archiveFilePath assetArchiveFilePath metadata filePaths =
        .ok { metadata := populateMetadataFilePlaceWildcards metadata filePaths
              assetArchiveFilePath := assetArchiveFilePath
              assetArchiveFilePathRoot := Path.MakeEmpty }) := by
  have hc : ((metadata.assetURL == "" && !assetArchiveFilePath.IsEmpty) ||
      (metadata.assetURL != "" && assetArchiveFilePath.IsEmpty)) = false := by
    rw [← Bool.not_eq_true]
    intro h
    apply hvalid
    simpa [Bool.or_eq_true, Bool.and_eq_true, beq_iff_eq, bne_iff_ne, Bool.not_eq_true'] using h
  constructor
  · intro he
    rw [makeArchiveFromMetadata, if_neg (by simp [hc]), if_pos he]
  · intro he
    rw [makeArchiveFromMetadata, if_neg (by simp [hc]), if_neg (by simp [he])]


/-- **C5 (amended).** Every placement rule surviving wildcard resolution
either is one of the original rules, copied unchanged, whose `Src` does not
end in the wildcard marker, or was produced by expansion and its `Src`
renders a path observed in the candidate list resolved against.  (The
original claim — that no resolved `Src` contains a marker and every
resolved `Src` names an observed path — fails for copied rules, see the
counterexample.) -/
theorem populate_wildcards_src_provenance (metadata : Metadata) (filePaths : List Path) :
    ∀ item ∈ (populateMetadataFilePlaceWildcards metadata filePaths).filesPlace,
      (item ∈ metadata.filesPlace ∧ strEndsWith item.Src "*" = false) ∨
        ∃ p ∈ filePaths, item.Src = p.toString := by
  intro item hmem
  simp only [populateMetadataFilePlaceWildcards, List.mem_flatMap] at hmem
  obtain ⟨rule, hrule, hitem⟩ := hmem
  unfold expandPlaceItem at hitem
  split_ifs at hitem with h
  · simp only [List.mem_filterMap] at hitem
    obtain ⟨p, hp, heq⟩ := hitem
    split_ifs at heq with hpre
    · right
      refine ⟨p, hp, ?_⟩
      cases heq
      rfl
  · left
    rw [List.mem_singleton] at hitem
    subst hitem
    exact ⟨hrule, by simpa using h⟩

/-- **C5 (counterexample).** A manifest whose rule `Src` is `a*b` (the
marker not in final position, so not a wildcard rule) is copied unchanged
by `MakeArchive`'s resolution: the resulting `Src` contains the marker and
names no path of the candidate list, refuting the claimed invariant. -/
theorem makeArchive_metadata_invariant_counterexample :
    makeArchiveFromMetadata (Path.parse "a.zip") Path.MakeEmpty
        ⟨"t", "", [⟨"a*b", "d"⟩]⟩ [Path.parse "tooth.json"] =
      .ok ⟨⟨"t", "", [⟨"a*b", "d"⟩]⟩, Path.parse "a.zip", Path.MakeEmpty⟩ ∧
    ¬ (∀ item ∈ (populateMetadataFilePlaceWildcards ⟨"t", "", [⟨"a*b", "d"⟩]⟩
          [Path.parse "tooth.json"]).filesPlace,
        item.Src.data.contains '*' = false ∧
          item.Src ∈ [Path.parse "tooth.json"].map Path.toString) := by
  constructor
  · rfl
  · decide

/-- Witness for C3: an empty asset URL with a non-empty external archive
path is rejected as a configuration mismatch. -/
theorem makeArchive_configMismatch_iff_witness :
    makeArchiveFromMetadata (Path.parse "a.zip") (Path.parse "ext.zip")
        ⟨"t", "", []⟩ [Path.parse "tooth.json"] = .error .configMismatch :=
  (makeArchive_configMismatch_iff (Path.parse "a.zip") (Path.parse "ext.zip")
      ⟨"t", "", []⟩ [Path.parse "tooth.json"]).1.mpr (Or.inl ⟨rfl, by decide⟩)

/-- Witness for C4: the self-contained branch keeps the archive path and
inferred root, the external branch keeps the external path and empty root. -/
theorem makeArchive_branches_witness :
    makeArchiveFromMetadata (Path.parse "a.zip") Path.MakeEmpty ⟨"t", "", []⟩
        [Path.parse "pkgs/A/tooth.json", Path.parse "pkgs/A/file.txt"] =
      .ok ⟨⟨"t", "", []⟩, Path.parse "a.zip", Path.parse "pkgs/A"⟩ ∧
    makeArchiveFromMetadata (Path.parse "a.zip") (Path.parse "ext.zip") ⟨"t", "u", []⟩
        [Path.parse "pkgs/A/tooth.json", Path.parse "pkgs/A/file.txt"] =
      .ok ⟨⟨"t", "u", []⟩, Path.parse "ext.zip", Path.MakeEmpty⟩ :=
  ⟨(makeArchive_branches (Path.parse "a.zip") Path.MakeEmpty ⟨"t", "", []⟩
      [Path.parse "pkgs/A/tooth.json", Path.parse "pkgs/A/file.txt"]
      (by decide)).1 (by decide),
    (makeArchive_branches (Path.parse "a.zip") (Path.parse "ext.zip") ⟨"t", "u", []⟩
      [Path.parse "pkgs/A/tooth.json", Path.parse "pkgs/A/file.txt"]
      (by decide)).2 (by decide)⟩

/-- Witness for C5 (amended): the expanded rule for `assets/a.png` under
the wildcard `assets/*` names a path observed in the candidate list. -/
theorem populate_wildcards_src_provenance_witness :
    (⟨"assets/a.png", "out/a.png"⟩ : RawMetadataFilesPlaceItem) ∈
      (populateMetadataFilePlaceWildcards ⟨"t", "", [⟨"assets/*", "out"⟩]⟩
        [Path.parse "assets/a.png"]).filesPlace ∧
    ((⟨"assets/a.png", "out/a.png"⟩ : RawMetadataFilesPlaceItem) ∈
        ([⟨"assets/*", "out"⟩] : List RawMetadataFilesPlaceItem) ∧
      strEndsWith "assets/a.png" "*" = false ∨
        ∃ p ∈ [Path.parse "assets/a.png"], "assets/a.png" = p.toString) := by
  have hmem : (⟨"assets/a.png", "out/a.png"⟩ : RawMetadataFilesPlaceItem) ∈
      (populateMetadataFilePlaceWildcards ⟨"t", "", [⟨"assets/*", "out"⟩]⟩
        [Path.parse "assets/a.png"]).filesPlace := by decide
  exact ⟨hmem, populate_wildcards_src_provenance ⟨"t", "", [⟨"assets/*", "out"⟩]⟩
    [Path.parse "assets/a.png"] ⟨"assets/a.png", "out/a.png"⟩ hmem⟩

/-- **C6.** For every fetched response body, the returned version list is a
permutation of the versions obtained by splitting the body into lines,
stripping an optional leading `v` and trailing `+incompatible`, and parsing
tolerantly (failures skipped, not errors), and it is sorted in descending
semantic-version precedence (no earlier entry ranks strictly below a later
one). -/
theorem getAvailableVersions_spec (content : String) :
    List.Perm (getAvailableVersions content) ((splitLines content).filterMap parseVersionLine) ∧
    List.Pairwise (fun a b => ¬ semverLt a b) (getAvailableVersions content) := by
  constructor
  · unfold getAvailableVersions
    exact (List.reverse_perm _).trans (List.perm_insertionSort _ _)
  · unfold getAvailableVersions
    rw [List.pairwise_reverse]
    haveI : IsTotal Version semverAscLe := ⟨semverAscLe_total⟩
    haveI : IsTrans Version semverAscLe := ⟨semverAscLe_trans⟩
    exact List.sorted_insertionSort semverAscLe _

/-- **C7.** `GetLatestStableVersion` returns exactly the first entry of
the descending version list whose pre-release component list is empty, and
fails precisely when no entry is stable — including for an empty list. -/
theorem getLatestStableVersion_spec (content : String) :
    (∀ version : Version, getLatestStableVersion content = .ok version ↔
      version.pre = [] ∧ ∃ l1 l2, getAvailableVersions content = l1 ++ version :: l2 ∧
        ∀ u ∈ l1, u.pre ≠ []) ∧
    ((∃ e, getLatestStableVersion content = .error e) ↔
      ∀ u ∈ getAvailableVersions content, u.pre ≠ []) := by
  constructor
  · intro version
    unfold getLatestStableVersion
    constructor
    · intro h
      split at h
      · rename_i v hfind
        cases h
        rw [List.find?_eq_some] at hfind
        obtain ⟨hp, l1, l2, heq, hprev⟩ := hfind
        refine ⟨by simpa using hp, l1, l2, heq, fun u hu => ?_⟩
        have := hprev u hu
        simpa using this
      · cases h
    · rintro ⟨hpre, l1, l2, heq, hprev⟩
      have hfind : (getAvailableVersions content).find? (fun v => v.pre.isEmpty) = some version := by
        rw [List.find?_eq_some]
        exact ⟨by simpa using hpre, l1, l2, heq, fun u hu => by simpa using hprev u hu⟩
      rw [hfind]
  · unfold getLatestStableVersion
    constructor
    · intro ⟨e, h⟩
      split at h
      · cases h
      · rename_i hfind
        rw [List.find?_eq_none] at hfind
        intro u hu
        simpa using hfind u hu
    · intro hall
      have hfind : (getAvailableVersions content).find? (fun v => v.pre.isEmpty) = none := by
        rw [List.find?_eq_none]
        intro u hu
        simpa using hall u hu
      rw [hfind]
      exact ⟨_, rfl⟩


theorem readMetadataFiles_ok (ms : List Metadata) :
    readMetadataFiles (ms.map Except.ok) = .ok ms := by
  induction ms with
  | nil => rfl
  | cons m rest ih => simp [readMetadataFiles, ih]

theorem readMetadataFiles_first_error (okPart : List Metadata) (e : String)
    (rest : List MetadataFileOutcome) :
    readMetadataFiles (okPart.map Except.ok ++ .error e :: rest) = .error e := by
  induction okPart with
  | nil => rfl
  | cons m ms ih => simp [readMetadataFiles, ih]

theorem readMetadataFiles_error_of_mem (files : List MetadataFileOutcome) (e : String)
    (hmem : Except.error e ∈ files) : ∃ e2, readMetadataFiles files = .error e2 := by
  induction files with
  | nil => cases hmem
  | cons f fs ih =>
    match f with
    | .error e1 => exact ⟨e1, rfl⟩
    | .ok m =>
      have hfs : Except.error e ∈ fs := by
        rcases List.mem_cons.mp hmem with h | h
        · cases h
        · exact h
      obtain ⟨e2, h2⟩ := ih hfs
      exact ⟨e2, by simp [readMetadataFiles, h2]⟩

/-- **C8.** `GetAllMetadata` parses every persisted manifest: when all
files read and parse, the result is their metadata sorted ascending,
case-insensitively, by tooth repository path; the first read or parse
failure aborts the whole listing with that error and no partial result. -/
theorem getAllMetadata_spec (files : List MetadataFileOutcome) :
    (∀ ms : List Metadata, files = ms.map Except.ok →
      ∃ l, getAllMetadata files = .ok l ∧ List.Perm l ms ∧ List.Pairwise repoPathLe l) ∧
    (∀ (okPart : List Metadata) (e : String) (rest : List MetadataFileOutcome),
      files = okPart.map Except.ok ++ .error e :: rest →
        getAllMetadata files = .error e) := by
  constructor
  · rintro ms rfl
    refine ⟨ms.insertionSort repoPathLe, ?_, ?_, ?_⟩
    · unfold getAllMetadata
      rw [readMetadataFiles_ok]
    · exact List.perm_insertionSort _ _
    · haveI : IsTotal Metadata repoPathLe := ⟨repoPathLe_total⟩
      haveI : IsTrans Metadata repoPathLe := ⟨repoPathLe_trans⟩
      exact List.sorted_insertionSort repoPathLe ms
  · rintro okPart e rest rfl
    unfold getAllMetadata
    rw [readMetadataFiles_first_error]

/-- **C9.** When the listing succeeds, `IsInstalled` answers `true` exactly
when some listed metadata matches the queried repository path
case-sensitively, `false` exactly when none does, and `GetMetadata` returns
a matching metadata when one exists and the not-found error when none
does. -/
theorem isInstalled_getMetadata_spec (files : List MetadataFileOutcome)
    (toothRepoPath : String) (ms : List Metadata)
    (h : getAllMetadata files = .ok ms) :
    (isInstalled files toothRepoPath = .ok true ↔
      ∃ m ∈ ms, m.toothRepoPath = toothRepoPath) ∧
    (isInstalled files toothRepoPath = .ok false ↔
      ∀ m ∈ ms, m.toothRepoPath ≠ toothRepoPath) ∧
    (∀ m : Metadata, getMetadata files toothRepoPath = .ok m →
      m ∈ ms ∧ m.toothRepoPath = toothRepoPath) ∧
    ((∃ m ∈ ms, m.toothRepoPath = toothRepoPath) →
      ∃ m, getMetadata files toothRepoPath = .ok m ∧ m.toothRepoPath = toothRepoPath) ∧
    ((∀ m ∈ ms, m.toothRepoPath ≠ toothRepoPath) →
      getMetadata files toothRepoPath =
        .error ("cannot find installed tooth metadata: " ++ toothRepoPath)) := by
  unfold isInstalled getMetadata
  rw [h]
  refine ⟨?_, ?_, ?_, ?_, ?_⟩
  · simp
  · simp
  · intro m hm
    cases hfind : ms.find? (fun metadata => metadata.toothRepoPath == toothRepoPath) with
    | none => simp [hfind] at hm
    | some m0 =>
      simp only [hfind] at hm
      cases hm
      exact ⟨List.mem_of_find?_eq_some hfind, by simpa using List.find?_some hfind⟩
  · rintro ⟨m, hmem, hrp⟩
    cases hfind : ms.find? (fun metadata => metadata.toothRepoPath == toothRepoPath) with
    | none =>
      rw [List.find?_eq_none] at hfind
      exact absurd hrp (by simpa using hfind m hmem)
    | some m0 =>
      refine ⟨m0, by simp [hfind], by simpa using List.find?_some hfind⟩
  · intro hall
    have hfind : ms.find? (fun metadata => metadata.toothRepoPath == toothRepoPath) = none := by
      rw [List.find?_eq_none]
      intro m hm
      simpa using hall m hm
    simp [hfind]

/-- **C10.** If any persisted metadata file fails to read or parse, then
`IsInstalled` and `GetMetadata` fail for every queried repository path:
neither answers from the readable subset, even when the queried package's
own file is intact. -/
theorem registry_failure_propagates (files : List MetadataFileOutcome)
    (toothRepoPath : String) (h : ∃ e, Except.error e ∈ files) :
    (∃ e1, isInstalled files toothRepoPath = .error e1) ∧
    (∃ e2, getMetadata files toothRepoPath = .error e2) := by
  obtain ⟨e, hmem⟩ := h
  obtain ⟨e2, h2⟩ := readMetadataFiles_error_of_mem files e hmem
  have hga : getAllMetadata files = .error e2 := by
    unfold getAllMetadata
    rw [h2]
  constructor
  · exact ⟨e2, by unfold isInstalled; rw [hga]⟩
  · exact ⟨e2, by unfold getMetadata; rw [hga]⟩

/-- Witness for C7: on the spec's example body, the latest stable version
is `2.0.0` (the pre-release `1.3.0-rc1` is skipped, the invalid line is
tolerated). -/
theorem getLatestStableVersion_spec_witness :
    getLatestStableVersion "v1.2.3\n2.0.0+incompatible\nnot-a-version\nv1.3.0-rc1" =
      .ok ⟨2, 0, 0, []⟩ :=
  ((getLatestStableVersion_spec "v1.2.3\n2.0.0+incompatible\nnot-a-version\nv1.3.0-rc1").1
      ⟨2, 0, 0, []⟩).mpr
    ⟨rfl, [], [⟨1, 3, 0, [.str "rc1"]⟩, ⟨1, 2, 3, []⟩], by decide, by decide⟩

/-- Witness for C8: a store of two readable manifests lists both, sorted
case-insensitively; a store with a corrupt file aborts with that error. -/
theorem getAllMetadata_spec_witness :
    (∃ l, getAllMetadata [Except.ok (⟨"b", "", []⟩ : Metadata), Except.ok (⟨"A", "", []⟩ : Metadata)]
        = .ok l ∧
      List.Perm l [(⟨"b", "", []⟩ : Metadata), ⟨"A", "", []⟩] ∧ List.Pairwise repoPathLe l) ∧
    getAllMetadata [Except.ok (⟨"b", "", []⟩ : Metadata), Except.error "corrupt"]
        = .error "corrupt" :=
  ⟨(getAllMetadata_spec [Except.ok ⟨"b", "", []⟩, Except.ok ⟨"A", "", []⟩]).1
      [⟨"b", "", []⟩, ⟨"A", "", []⟩] rfl,
    (getAllMetadata_spec [Except.ok ⟨"b", "", []⟩, Except.error "corrupt"]).2
      [⟨"b", "", []⟩] "corrupt" [] rfl⟩

/-- Witness for C9: lookups match exactly and case-sensitively — `repo/a`
is found, `Repo/A` is not. -/
theorem isInstalled_getMetadata_spec_witness :
    isInstalled [Except.ok (⟨"repo/a", "", []⟩ : Metadata)] "repo/a" = .ok true ∧
    isInstalled [Except.ok (⟨"repo/a", "", []⟩ : Metadata)] "Repo/A" = .ok false ∧
    getMetadata [Except.ok (⟨"repo/a", "", []⟩ : Metadata)] "Repo/A" =
      .error ("cannot find installed tooth metadata: " ++ "Repo/A") :=
  ⟨((isInstalled_getMetadata_spec [Except.ok ⟨"repo/a", "", []⟩] "repo/a"
        [⟨"repo/a", "", []⟩] rfl).1).mpr ⟨⟨"repo/a", "", []⟩, by decide, rfl⟩,
    ((isInstalled_getMetadata_spec [Except.ok ⟨"repo/a", "", []⟩] "Repo/A"
        [⟨"repo/a", "", []⟩] rfl).2.1).mpr (by decide),
    (isInstalled_getMetadata_spec [Except.ok ⟨"repo/a", "", []⟩] "Repo/A"
        [⟨"repo/a", "", []⟩] rfl).2.2.2.2 (by decide)⟩

/-- Witness for C10: one corrupt file makes both lookups fail even though
the queried package's own metadata file is intact and present. -/
theorem registry_failure_propagates_witness :
    (∃ e1, isInstalled [Except.ok (⟨"repo/a", "", []⟩ : Metadata), Except.error "corrupt"]
        "repo/a" = .error e1) ∧
    (∃ e2, getMetadata [Except.ok (⟨"repo/a", "", []⟩ : Metadata), Except.error "corrupt"]
        "repo/a" = .error e2) :=
  registry_failure_propagates [Except.ok ⟨"repo/a", "", []⟩, Except.error "corrupt"] "repo/a"
    ⟨"corrupt", List.mem_cons_of_mem _ (List.mem_cons_self _ _)⟩

end Lip
